import Mathlib

/-!
Verification of the agent orchestration core of a CLI chat agent.

The definitions below are a shallow embedding of the program's core:
the Markdown post-formatter, the workflow nodes and their driver loop,
the streaming event generator, the tool registry, the remote tool-provider
client and the built-in datetime tool.  Machine strings are Lean `String`s
(Python `str`), dictionaries keyed by strings are association lists in
insertion order, and the external LLM and tool executors are parameters
of the functions that call them.  Fallible operations return `Option`,
and the driver loop takes explicit fuel standing for the runtime's
recursion limit: exhausting it models the exception that limit raises.
-/

namespace Spec2Proof

/-! ## Python-style character and string helpers -/

/-- Python whitespace: the characters `str.strip` removes and the `\s`
    class of the `re` module matches on `str` patterns (ASCII whitespace,
    the C1 separators and the Unicode space code points). -/
def pySpace (c : Char) : Bool :=
  c = ' ' || c = '\t' || c = '\n' || c = '\r' ||
  c = Char.ofNat 11 || c = Char.ofNat 12 ||
  c = Char.ofNat 28 || c = Char.ofNat 29 || c = Char.ofNat 30 || c = Char.ofNat 31 ||
  c = Char.ofNat 133 || c = Char.ofNat 160 || c = Char.ofNat 5760 ||
  (8192 ≤ c.toNat && c.toNat ≤ 8202) ||
  c = Char.ofNat 8232 || c = Char.ofNat 8233 ||
  c = Char.ofNat 8239 || c = Char.ofNat 8287 || c = Char.ofNat 12288

/-- Python `text.strip()` on a character list: drop whitespace from both ends. -/
def pyStrip (l : List Char) : List Char :=
  ((l.dropWhile pySpace).reverse.dropWhile pySpace).reverse

/-! ## The Markdown post-formatter `_improve_line_breaks`

Each `re.sub` call of the source is one recursive function below.  Every
function scans left to right; at each position it attempts the pattern,
on success it emits the replacement and resumes after the match (matches
never overlap), on failure it emits one character and advances.  The
first argument is fuel; one unit is spent per position scanned, so fuel
equal to the input length always suffices, and the wrapper `runSub`
supplies exactly that. -/

/-- Group `#{1,6}\s` of rule 1 matched greedily at the front of `l`:
    one to six `#` followed by one whitespace character.  Seven or more `#`
    match nothing (backtracking still meets a `#` where `\s` is required). -/
def hashMatch (l : List Char) : Option (List Char × List Char) :=
  let hs := l.takeWhile (fun c => c = '#')
  if hs.length = 0 || 6 < hs.length then none
  else
    match l.drop hs.length with
    | [] => none
    | w :: r => if pySpace w then some (hs ++ [w], r) else none

/-- Rule 1, `re.sub r'([^\n])\n(#{1,6}\s)' r'\1\n\n\2'`: a blank line before
    a header that follows a non-blank line. -/
def sub1 : Nat → List Char → List Char
  | 0, l => l
  | _ + 1, [] => []
  | f + 1, a :: l =>
    match l with
    | '\n' :: rest =>
      if a = '\n' then a :: sub1 f l
      else
        match hashMatch rest with
        | some (g, r) => a :: '\n' :: '\n' :: (g ++ sub1 f r)
        | none => a :: sub1 f l
    | _ => a :: sub1 f l

/-- Rule 2, `re.sub r'(#{1,6}[^\n]*)\n([^\n#])' r'\1\n\n\2'`: a blank line
    after a header line followed by ordinary text. -/
def sub2 : Nat → List Char → List Char
  | 0, l => l
  | _ + 1, [] => []
  | f + 1, c :: l =>
    if c = '#' then
      let line := (c :: l).takeWhile (fun x => x ≠ '\n')
      match (c :: l).drop line.length with
      | '\n' :: d :: r =>
        if d ≠ '\n' && d ≠ '#' then line ++ '\n' :: '\n' :: d :: sub2 f r
        else c :: sub2 f l
      | _ => c :: sub2 f l
    else c :: sub2 f l

/-- Rule 3a, `re.sub r'([^\n])\n(-\s\*\*)' r'\1\n\n\2'`: a blank line before
    a bulleted item that opens a bold run. -/
def sub3a : Nat → List Char → List Char
  | 0, l => l
  | _ + 1, [] => []
  | f + 1, a :: l =>
    match l with
    | '\n' :: '-' :: w :: '*' :: '*' :: r =>
      if a ≠ '\n' && pySpace w then
        a :: '\n' :: '\n' :: '-' :: w :: '*' :: '*' :: sub3a f r
      else a :: sub3a f l
    | _ => a :: sub3a f l

/-- Rule 3b, `re.sub r'([^\n])\n(-\s)' r'\1\n\2'`: the replacement equals the
    match, so this substitution never changes its input. -/
def sub3b : Nat → List Char → List Char
  | 0, l => l
  | _ + 1, [] => []
  | f + 1, a :: l =>
    match l with
    | '\n' :: '-' :: w :: r =>
      if a ≠ '\n' && pySpace w then a :: '\n' :: '-' :: w :: sub3b f r
      else a :: sub3b f l
    | _ => a :: sub3b f l

/-- Group `\*\*[^*]+\*\*` matched at the front of `l`: a bold run. -/
def boldAtFront (l : List Char) : Option (List Char × List Char) :=
  match l with
  | '*' :: '*' :: r =>
    let mid := r.takeWhile (fun c => c ≠ '*')
    if mid.isEmpty then none
    else
      match r.drop mid.length with
      | '*' :: '*' :: r2 => some ('*' :: '*' :: mid ++ '*' :: '*' :: [], r2)
      | _ => none
  | _ => none

/-- Group `\s*(\*\*[^*]+\*\*)` matched at the front of `l`: optional
    whitespace (newlines included) followed by a bold run. -/
def boldAfterWs (l : List Char) : Option (List Char × List Char) :=
  boldAtFront (l.drop (l.takeWhile pySpace).length)

/-- Rule 4a, `re.sub r'([^\s\n])\s*(\*\*[^*]+\*\*)' r'\1 \2'`: a single space
    between a non-space character and a following bold run. -/
def sub4a : Nat → List Char → List Char
  | 0, l => l
  | _ + 1, [] => []
  | f + 1, c :: l =>
    if pySpace c then c :: sub4a f l
    else
      match boldAfterWs l with
      | some (bold, r) => c :: ' ' :: (bold ++ sub4a f r)
      | none => c :: sub4a f l

/-- Rule 4b, `re.sub r'(\*\*[^*]+\*\*)\s*([^\s\n])' r'\1 \2'`: a single space
    between a bold run and a following non-space character. -/
def sub4b : Nat → List Char → List Char
  | 0, l => l
  | _ + 1, [] => []
  | f + 1, c :: l =>
    match boldAtFront (c :: l) with
    | some (bold, r) =>
      match r.drop (r.takeWhile pySpace).length with
      | d :: r2 => bold ++ ' ' :: d :: sub4b f r2
      | [] => c :: sub4b f l
    | none => c :: sub4b f l

/-- Rule 5, `re.sub r'(\*\*[^*]+\*\*)\s*(\*\*[^*]+\*\*)' r'\1\n\n\2'`: a blank
    line between two adjacent bold runs. -/
def sub5 : Nat → List Char → List Char
  | 0, l => l
  | _ + 1, [] => []
  | f + 1, c :: l =>
    match boldAtFront (c :: l) with
    | some (b1, r) =>
      match boldAfterWs r with
      | some (b2, r2) => b1 ++ '\n' :: '\n' :: (b2 ++ sub5 f r2)
      | none => c :: sub5 f l
    | none => c :: sub5 f l

/-- Rule 6, `re.sub r'\n\n\n+' '\n\n'`: collapse runs of three or more
    newlines to exactly two. -/
def sub6 : Nat → List Char → List Char
  | 0, l => l
  | f + 1, l =>
    match l with
    | '\n' :: '\n' :: '\n' :: r =>
      '\n' :: '\n' :: sub6 f (r.dropWhile (fun c => c = '\n'))
    | c :: l2 => c :: sub6 f l2
    | [] => []

/-- Run one substitution with fuel equal to the input length (always enough:
    every unit of fuel consumes at least one input character). -/
def runSub (g : Nat → List Char → List Char) (l : List Char) : List Char :=
  g l.length l

/-- The whole `_improve_line_breaks` pipeline on a character list: strip, then
    the eight substitutions in source order. -/
def improveLB (l : List Char) : List Char :=
  runSub sub6 (runSub sub5 (runSub sub4b (runSub sub4a
    (runSub sub3b (runSub sub3a (runSub sub2 (runSub sub1 (pyStrip l))))))))

/-- The source's `_improve_line_breaks`: the empty string is returned as is
    (`if not text: return text`), any other input runs the pipeline. -/
def improve_line_breaks (s : String) : String :=
  if s.data.isEmpty then s else String.mk (improveLB s.data)

/-! ## Data model: tool calls, messages, agent state -/

/-- A normalized tool-call intent `{id, name, args}`; `args` is a JSON object
    modelled as a key/value association list. -/
structure ToolCall where
  id : String
  name : String
  args : List (String × String)
deriving DecidableEq

/-- The message union: `SystemMessage`, `HumanMessage`, `AIMessage` (the only
    variant carrying a `tool_calls` attribute) and `ToolMessage`. -/
inductive Message where
  | system (content : String)
  | user (content : String)
  | assistant (content : String) (tool_calls : List ToolCall)
  | toolResult (tool_call_id : String) (content : String)
deriving DecidableEq

/-- The probe `hasattr(msg, 'tool_calls')`: only an Assistant message carries
    the attribute, and then it holds the message's tool-call list. -/
def Message.toolCallsAttr : Message → Option (List ToolCall)
  | .assistant _ tcs => some tcs
  | _ => none

/-- Whether a message is a `ToolMessage`. -/
def Message.isToolResult : Message → Bool
  | .toolResult _ _ => true
  | _ => false

/-- Whether a message is a `SystemMessage`. -/
def Message.isSystem : Message → Bool
  | .system _ => true
  | _ => false

/-- The workflow state `AgentState` of the source: message history, system
    prompt, the turn's user input, accumulated answer text and the most
    recent pending tool calls. -/
structure AgentState where
  messages : List Message
  system_prompt : String
  user_input : String
  ai_response : String
  tool_calls : List ToolCall
deriving DecidableEq

/-- Outcome of one LLM invocation: an Assistant reply carrying content and
    tool calls, or a raised provider exception. -/
inductive LLMResult where
  | ok (content : String) (tool_calls : List ToolCall)
  | failure
deriving DecidableEq

/-- The LLM capability: the history in, one `LLMResult` out. -/
def LLM : Type := List Message → LLMResult

/-- A tool executor: tool name and arguments in, stringified result out.
    `ToolNode` captures tool exceptions as error text, so execution is total. -/
def ToolExec : Type := String → List (String × String) → String

/-! ## Workflow nodes (`AgentService` of `agent/service.py`) -/

/-- The apology `_generate_response` appends when the LLM invocation raises. -/
def llmApology : String := "죄송합니다. 응답을 생성하는 중에 오류가 발생했습니다."

/-- The apology `chat` returns and `chat_stream_with_workflow` emits when an
    exception escapes the workflow. -/
def chatApology : String := "죄송합니다. 요청을 처리하는 중에 오류가 발생했습니다."

/-- Node `process_input`: if the history is empty, append
    `System{system_prompt}`; then append `User{user_input}`. -/
def process_input (sp : String) (st : AgentState) : AgentState :=
  let ms := if st.messages.isEmpty then [Message.system sp] else st.messages
  { st with messages := ms ++ [Message.user st.user_input], system_prompt := sp }

/-- Fallback extraction of `_generate_response` (method 3): scan the given
    messages in order for the first one carrying a non-empty `tool_calls`
    attribute and return those calls. -/
def findToolCalls : List Message → List ToolCall
  | [] => []
  | m :: r =>
    match m.toolCallsAttr with
    | some (t :: ts) => t :: ts
    | _ => findToolCalls r

/-- The last five messages of a history, most recent first: the source's
    `reversed(messages[-5:])`. -/
def lastFiveRev (msgs : List Message) : List Message :=
  (msgs.drop (msgs.length - 5)).reverse

/-- Node `generate_response`: invoke the LLM on the history and append its
    reply.  Tool-call intents come from the reply's `tool_calls` attribute
    when non-empty, else from a scan of the last five messages.  A raised
    LLM exception is caught in the node: the fixed apology is appended as an
    Assistant message and the pending tool calls are cleared; there is no
    retry. -/
def generate_response (llm : LLM) (st : AgentState) : AgentState :=
  match llm st.messages with
  | .failure =>
    { st with messages := st.messages ++ [Message.assistant llmApology []],
              ai_response := llmApology, tool_calls := [] }
  | .ok content tcs =>
    let msgs := st.messages ++ [Message.assistant content tcs]
    let extracted := if tcs.isEmpty then findToolCalls (lastFiveRev msgs) else tcs
    { st with messages := msgs, ai_response := content, tool_calls := extracted }

/-- The two targets of the conditional edge after `generate_response`. -/
inductive Route where
  | callTools
  | formatOutput
deriving DecidableEq

/-- The conditional router `_should_call_tools`: `call_tools` when the last
    message of the history has a non-empty `tool_calls` attribute, otherwise
    `format_output`. -/
def should_call_tools (msgs : List Message) : Route :=
  match msgs.getLast? with
  | none => Route.formatOutput
  | some m =>
    match m.toolCallsAttr with
    | some (_ :: _) => Route.callTools
    | _ => Route.formatOutput

/-- Node `call_tools` (`ToolNode`): execute the tool calls of the last
    message in order and return one `ToolMessage` per call, carrying the
    matching `tool_call_id`. -/
def toolMessages (exec : ToolExec) (msgs : List Message) : List Message :=
  match msgs.getLast? with
  | some (.assistant _ tcs) =>
    tcs.map (fun tc => Message.toolResult tc.id (exec tc.name tc.args))
  | _ => []

/-- Node `format_output`: post-process the accumulated answer text with the
    Markdown formatter; messages and tool calls are untouched. -/
def format_output (st : AgentState) : AgentState :=
  { st with ai_response := improve_line_breaks st.ai_response }

/-! ## The compiled workflow

`astream` in updates mode yields, per executed node, the state delta that
node returned: `process_input` and `generate_response` return the full
message list, `call_tools` (the prebuilt `ToolNode`) returns only the new
tool-result messages, and `format_output` returns no messages at all. -/

/-- One `astream` chunk `{node_name: node_output}`. -/
inductive Chunk where
  | procInput (messages : List Message)
  | genResponse (messages : List Message) (ai_response : String) (tool_calls : List ToolCall)
  | callTools (messages : List Message)
  | formatOut (ai_response : String) (tool_calls : List ToolCall)
deriving DecidableEq

/-- Everything one turn of the compiled workflow produced. -/
structure RunResult where
  chunks : List Chunk
  finalState : AgentState
  completed : Bool
  rounds : Nat
  llmCalls : Nat
deriving DecidableEq

/-- The reasoning/tool loop `generate_response → (call_tools →
    generate_response)* → format_output`.  The source sets no bound of its
    own on this loop: it ends exactly when the router picks
    `format_output`.  `fuel` stands for the runtime's recursion limit;
    exhausting it (`completed = false`) models the `GraphRecursionError`
    that limit raises. -/
def runLoop (llm : LLM) (exec : ToolExec) : Nat → AgentState → RunResult
  | 0, st => ⟨[], st, false, 0, 0⟩
  | fuel + 1, st =>
    let st1 := generate_response llm st
    let c1 := Chunk.genResponse st1.messages st1.ai_response st1.tool_calls
    match should_call_tools st1.messages with
    | .formatOutput =>
      let st2 := format_output st1
      ⟨[c1, Chunk.formatOut st2.ai_response st2.tool_calls], st2, true, 0, 1⟩
    | .callTools =>
      let tms := toolMessages exec st1.messages
      let st2 := { st1 with messages := st1.messages ++ tms }
      let r := runLoop llm exec fuel st2
      ⟨c1 :: Chunk.callTools tms :: r.chunks, r.finalState, r.completed,
        r.rounds + 1, r.llmCalls + 1⟩

/-- The initial `AgentState` a turn starts from. -/
def initState (sp : String) (conv : List Message) (input : String) : AgentState :=
  ⟨conv, sp, input, "", []⟩

/-- One whole user turn: `process_input`, then the reasoning/tool loop. -/
def runTurn (llm : LLM) (exec : ToolExec) (sp : String) (conv : List Message)
    (input : String) (fuel : Nat) : RunResult :=
  let stP := process_input sp (initState sp conv input)
  let r := runLoop llm exec fuel stP
  { r with chunks := Chunk.procInput stP.messages :: r.chunks }

/-- `AgentService.chat`: run the workflow inside `try/except`.  On success
    the caller's conversation state receives the new history and the answer
    and pending tool calls are returned; when an exception escapes the
    workflow, the fixed apology and an empty tool-call list are returned and
    the conversation state is left as it was. -/
def chat (llm : LLM) (exec : ToolExec) (sp : String) (conv : List Message)
    (input : String) (fuel : Nat) : (String × List ToolCall) × List Message :=
  let r := runTurn llm exec sp conv input fuel
  if r.completed then
    ((r.finalState.ai_response, r.finalState.tool_calls), r.finalState.messages)
  else
    ((chatApology, []), conv)

/-! ## The streaming event protocol (`chat_stream_with_workflow`) -/

/-- The typed events of the streaming protocol. -/
inductive Event where
  | workflowStep (step : String) (status : String)
  | toolsPending (tool_calls : List ToolCall) (debug_mode : Bool)
  | toolExecuting (tool_name : String)
  | aiResponseReady (response : String)
  | text (chunk : String)
  | streamingComplete (final_response : String)
  | error (message : String)
deriving DecidableEq

/-- The backtick character, code point 96. -/
def btick : Char := Char.ofNat 96

/-- One token of `_smart_split_for_streaming` matched at the front of `l`:
    the regex alternatives `\*\*[^*]+\*\*`, `\*[^*]+\*` and a backtick run
    are tried in order, and otherwise a maximal run of non-whitespace
    characters (which always matches, `l` starting non-whitespace). -/
def smartTok (l : List Char) : Option (List Char × List Char) :=
  match boldAtFront l with
  | some (tok, r) => some (tok, r)
  | none =>
    match l with
    | '*' :: r =>
      let mid := r.takeWhile (fun c => c ≠ '*')
      match mid.isEmpty, r.drop mid.length with
      | false, '*' :: r2 => some ('*' :: mid ++ ['*'], r2)
      | _, _ => nonStarFallback l
    | c :: r =>
      if c = btick then
        let mid := r.takeWhile (fun x => x ≠ btick)
        match mid.isEmpty, r.drop mid.length with
        | false, d :: r2 =>
          if d = btick then some (c :: mid ++ [d], r2) else nonStarFallback l
        | _, _ => nonStarFallback l
      else nonStarFallback l
    | [] => none
where
  /-- The last alternative `[^\s]+`: a maximal non-whitespace run. -/
  nonStarFallback (l : List Char) : Option (List Char × List Char) :=
    let tok := l.takeWhile (fun c => !pySpace c)
    if tok.isEmpty then none else some (tok, l.drop tok.length)

/-- All tokens `re.findall` yields for `_smart_split_for_streaming`:
    whitespace separates matches and belongs to none of them. -/
def smartTokens : Nat → List Char → List (List Char)
  | 0, _ => []
  | _ + 1, [] => []
  | f + 1, c :: l =>
    if pySpace c then smartTokens f l
    else
      match smartTok (c :: l) with
      | some (tok, r) => tok :: smartTokens f r
      | none => smartTokens f l

/-- `_smart_split_for_streaming`: tokenize, then drop tokens that are blank
    after stripping (the source's final filter). -/
def smart_split_for_streaming (s : String) : List String :=
  ((smartTokens s.data.length s.data).filter
    (fun t => !(pyStrip t).isEmpty)).map String.mk

/-- The `text` events for one line: the first token verbatim, later tokens
    prefixed by one space; a line that is blank after stripping emits
    nothing. -/
def tokenEvents (line : String) : List Event :=
  if (pyStrip line.data).isEmpty then []
  else
    match smart_split_for_streaming line with
    | [] => []
    | t :: ts => Event.text t :: ts.map (fun tok => Event.text (" " ++ tok))

/-- The `text` events for the formatted answer: lines in order, a bare
    newline event after every line but the last. -/
def lineEvents : List String → List Event
  | [] => []
  | [line] => tokenEvents line
  | line :: rest => tokenEvents line ++ Event.text "\n" :: lineEvents rest

/-- The `tool_executing` events a `call_tools` chunk yields: scan the
    chunk's messages from the end for the first one with a non-empty
    `tool_calls` attribute and emit one event per call. -/
def execEvents (msgs : List Message) : List Event :=
  if msgs.isEmpty then []
  else (findToolCalls msgs.reverse).map (fun tc => Event.toolExecuting tc.name)

/-- The event loop of `chat_stream_with_workflow` over the workflow's
    chunks.  `td` is `tools_displayed`, `fs` is `final_response_started`;
    the returned flag tells whether the generator returned after emitting
    `streaming_complete`. -/
def goEvents (debug : Bool) : Bool → Bool → List Chunk → List Event × Bool
  | _, _, [] => ([], false)
  | td, fs, chunk :: rest =>
    match chunk with
    | .procInput _ => goEvents debug td fs rest
    | .genResponse _ ai tcs =>
      let e1 := if debug then [Event.workflowStep "generate_response" "started"] else []
      let e2 := if !tcs.isEmpty && !td then [Event.toolsPending tcs debug] else []
      let e3 := if !(ai = "") && !fs then [Event.aiResponseReady ai] else []
      let (es, done) := goEvents debug (td || !tcs.isEmpty) (fs || !(ai = "")) rest
      (e1 ++ e2 ++ e3 ++ es, done)
    | .callTools msgs =>
      let e1 := if debug then [Event.workflowStep "call_tools" "started"] else []
      let e2 := if debug then [Event.workflowStep "call_tools" "completed"] else []
      let (es, done) := goEvents debug td fs rest
      (e1 ++ execEvents msgs ++ e2 ++ es, done)
    | .formatOut ai _ =>
      let e1 := if debug then [Event.workflowStep "format_output" "started"] else []
      if ai = "" then
        let (es, done) := goEvents debug td fs rest
        (e1 ++ es, done)
      else
        let formatted := improve_line_breaks ai
        (e1 ++ lineEvents (formatted.splitOn "\n") ++ [Event.streamingComplete formatted],
          true)

/-- The whole event stream of one turn: the generator's events; when the
    chunk source ends by raising instead of completing and the generator has
    not already returned, the `except` clause emits the terminal `error`. -/
def eventsOfTurn (debug : Bool) (chunks : List Chunk) (failed : Bool) : List Event :=
  match goEvents debug false false chunks with
  | (es, true) => es
  | (es, false) => if failed then es ++ [Event.error chatApology] else es

/-- The event stream `chat_stream_with_workflow` yields for one user turn. -/
def eventsOfRun (llm : LLM) (exec : ToolExec) (sp : String) (conv : List Message)
    (input : String) (fuel : Nat) (debug : Bool) : List Event :=
  let r := runTurn llm exec sp conv input fuel
  eventsOfTurn debug r.chunks (!r.completed)

/-- Whether an event is terminal (`streaming_complete` or `error`). -/
def Event.isTerminal : Event → Bool
  | .streamingComplete _ => true
  | .error _ => true
  | _ => false

/-- Whether an event is `tools_pending`. -/
def Event.isPending : Event → Bool
  | .toolsPending _ _ => true
  | _ => false

/-- Whether an event is `tool_executing`. -/
def Event.isExecuting : Event → Bool
  | .toolExecuting _ => true
  | _ => false

/-! ## The local tool registry (`tools/registry.py`) -/

/-- A locally registered tool: a name and a description. -/
structure BaseTool where
  name : String
  description : String
deriving DecidableEq

/-- Insert into a string-keyed association list with Python `dict`
    semantics: an existing key keeps its position and takes the new value,
    a new key is appended. -/
def assocSet {α : Type} : List (String × α) → String → α → List (String × α)
  | [], k, v => [(k, v)]
  | (k', v') :: rest, k, v =>
    if k' = k then (k', v) :: rest else (k', v') :: assocSet rest k v

/-- Lookup in a string-keyed association list (`dict.get`). -/
def assocGet {α : Type} : List (String × α) → String → Option α
  | [], _ => none
  | (k', v') :: rest, k => if k' = k then some v' else assocGet rest k

/-- The `ToolRegistry` state: the `_tools`, `_tool_status` and
    `_tool_descriptions` dictionaries. -/
structure ToolRegistry where
  tools : List (String × BaseTool)
  status : List (String × Bool)
  descriptions : List (String × String)
deriving DecidableEq

/-- The empty registry. -/
def ToolRegistry.empty : ToolRegistry := ⟨[], [], []⟩

/-- `ToolRegistry.register_tool`: store the tool, its enabled status and its
    description under the tool's name, unconditionally — an existing entry
    under the same name is replaced, no error is raised. -/
def register_tool (r : ToolRegistry) (tool : BaseTool) (enabled : Bool) : ToolRegistry :=
  { tools := assocSet r.tools tool.name tool,
    status := assocSet r.status tool.name enabled,
    descriptions := assocSet r.descriptions tool.name tool.description }

/-- `ToolRegistry.get_tool`. -/
def get_tool (r : ToolRegistry) (name : String) : Option BaseTool :=
  assocGet r.tools name

/-! ## The remote tool-provider client (`mcp/client.py`) -/

/-- A configured remote tool-provider server. -/
structure MCPServerCfg where
  name : String
  url : String
  enabled : Bool
deriving DecidableEq

/-- The environment's answer to one server's tool-discovery handshake:
    the server's tool names, or the raised connection error. -/
def Discovery : Type := String → Except String (List String)

/-- `MultiServerMCPClient.get_tools`: discover every configured server's
    tools and concatenate them; a single raised discovery error propagates
    and fails the whole call. -/
def multiServerGetTools (disc : Discovery) : List MCPServerCfg → Except String (List String)
  | [] => .ok []
  | s :: rest =>
    match disc s.name with
    | .error e => .error e
    | .ok ts =>
      match multiServerGetTools disc rest with
      | .error e => .error e
      | .ok rs => .ok (ts ++ rs)

/-- `MCPClient.initialize`: call `get_tools` over all given servers inside
    `try/except`; success keeps the tools and returns `True`, any raised
    error clears the tools and returns `False`. -/
def clientInit (disc : Discovery) (servers : List MCPServerCfg) : Bool × List String :=
  match multiServerGetTools disc servers with
  | .ok ts => (true, ts)
  | .error _ => (false, [])

/-- `MCPClientManager.initialize`: with no configured servers return
    `False`; otherwise initialize a client over the enabled servers (the
    manager is handed `get_enabled_servers()`). -/
def managerInit (disc : Discovery) (allServers : List MCPServerCfg) : Bool × List String :=
  let enabled := allServers.filter (fun s => s.enabled)
  if enabled.isEmpty then (false, []) else clientInit disc enabled

/-! ## The built-in datetime tool (`tools/datetime_tools.py`) -/

/-- A wall-clock reading. -/
structure Now where
  year : Nat
  month : Nat
  day : Nat
  hour : Nat
  minute : Nat
  second : Nat
deriving DecidableEq

/-- Zero-pad a number to two digits (`strftime` field). -/
def pad2 (n : Nat) : String :=
  if n < 10 then "0" ++ toString n else toString n

/-- Zero-pad a year to four digits (`strftime %Y`). -/
def pad4 (n : Nat) : String :=
  if n < 10 then "000" ++ toString n
  else if n < 100 then "00" ++ toString n
  else if n < 1000 then "0" ++ toString n
  else toString n

/-- `strftime('%Y-%m-%d')`. -/
def fmtDate (t : Now) : String :=
  pad4 t.year ++ "-" ++ pad2 t.month ++ "-" ++ pad2 t.day

/-- `strftime('%H:%M:%S')`. -/
def fmtClock (t : Now) : String :=
  pad2 t.hour ++ ":" ++ pad2 t.minute ++ ":" ++ pad2 t.second

/-- `strftime('%Y-%m-%d %H:%M:%S')`. -/
def fmtDateTime (t : Now) : String :=
  fmtDate t ++ " " ++ fmtClock t

/-- `datetime.isoformat()`: an aware UTC reading carries the `+00:00`
    offset, a naive local reading carries none. -/
def fmtIso (utc : Bool) (t : Now) : String :=
  fmtDate t ++ "T" ++ fmtClock t ++ (if utc then "+00:00" else "")

/-- The format allow-list of `get_current_time`. -/
def allowedFormats : List String := ["datetime", "date", "time", "iso"]

/-- The timezone allow-list of `get_current_time`. -/
def allowedTimezones : List String := ["utc", "local"]

/-- The blocked shell metacharacters of the validators. -/
def metaChars : List Char :=
  [Char.ofNat 47, Char.ofNat 92, Char.ofNat 59, Char.ofNat 38, Char.ofNat 124,
   Char.ofNat 96, Char.ofNat 36, Char.ofNat 40, Char.ofNat 41, Char.ofNat 60,
   Char.ofNat 62]

/-- The coercion step of `get_current_time` for `format_type`: a truthy
    value outside the allow-list silently becomes `'datetime'`. -/
def coerceFormat : Option String → Option String
  | none => none
  | some f => if !(f = "") && !(allowedFormats.contains f) then some "datetime" else some f

/-- The coercion step of `get_current_time` for `timezone`: a truthy value
    outside the allow-list silently becomes `'local'`. -/
def coerceTimezone : Option String → Option String
  | none => none
  | some t => if !(t = "") && !(allowedTimezones.contains t) then some "local" else some t

/-- `get_current_time(format_type, timezone)`, parametrized by the two
    wall-clock readings the two timezone branches would take. -/
def get_current_time (format_type timezone : Option String)
    (utcNow localNow : Now) : String :=
  let fmt := coerceFormat format_type
  let tz := coerceTimezone timezone
  let useUtc := tz = some "utc"
  let t := if useUtc then utcNow else localNow
  let tz_info := if useUtc then " UTC" else " (Local)"
  match fmt with
  | some "date" => fmtDate t ++ tz_info
  | some "time" => fmtClock t ++ tz_info
  | some "iso" => fmtIso useUtc t
  | _ => fmtDateTime t ++ tz_info

/-- `_validate_format_input`: reject strings over 20 characters, strings
    containing a blocked metacharacter, and anything off the allow-list. -/
def validate_format_input (s : String) : Bool :=
  if 20 < s.length then false
  else if s.data.any (fun c => metaChars.contains c) then false
  else allowedFormats.contains s

/-- `_validate_timezone_input`: the same with a 10-character bound and the
    timezone allow-list. -/
def validate_timezone_input (s : String) : Bool :=
  if 10 < s.length then false
  else if s.data.any (fun c => metaChars.contains c) then false
  else allowedTimezones.contains s

/-! ## Reachable histories -/

/-- Message histories the workflow and session orchestrator can produce,
    whatever the LLM and the tools reply: the empty session start, a
    `process_input` step, an appended Assistant reply (an LLM answer or the
    caught-failure apology), and appended tool results. -/
inductive Reachable : List Message → Prop
  | empty : Reachable []
  | proc (sp input : String) (msgs : List Message) : Reachable msgs →
      Reachable ((if msgs.isEmpty then [Message.system sp] else msgs) ++ [Message.user input])
  | gen (content : String) (tcs : List ToolCall) (msgs : List Message) : Reachable msgs →
      Reachable (msgs ++ [Message.assistant content tcs])
  | tools (tms msgs : List Message) : Reachable msgs →
      (∀ m ∈ tms, m.isToolResult = true) → Reachable (msgs ++ tms)

/-- Whether every message after index 0 is not a System message: System
    messages occur at index 0 only, hence at most once. -/
def sysOnlyAtHead (msgs : List Message) : Bool :=
  (msgs.drop 1).all (fun m => !m.isSystem)

/-! ## Auxiliary predicates and concrete instances used by the theorems -/

/-- A definition following the specification's words for the router claim:
    the most recently appended message is an Assistant message whose
    `tool_calls` field is non-empty. -/
def lastIsAssistantWithCalls (msgs : List Message) : Bool :=
  match msgs.getLast? with
  | some (.assistant _ (_ :: _)) => true
  | _ => false

/-- Whether a character list contains three consecutive newlines. -/
def hasTriple : List Char → Bool
  | c1 :: c2 :: c3 :: r =>
    (c1 = '\n' && c2 = '\n' && c3 = '\n') || hasTriple (c2 :: c3 :: r)
  | _ => false

/-- Whether an `astream` chunk of the `call_tools` node carries only
    tool-result messages (as the prebuilt `ToolNode`'s output always does). -/
def chunkToolResultsOnly : Chunk → Bool
  | .callTools msgs => msgs.all (fun m => m.isToolResult)
  | _ => true

/-- Whether a discovery outcome succeeded. -/
def discOk : Except String (List String) → Bool
  | .ok _ => true
  | .error _ => false

/-- An LLM that keeps requesting the tool `toolA` until the history holds at
    least `N` messages, then answers without tool calls: each round trip of
    the loop grows the history by two messages. -/
def oracleLen (N : Nat) : LLM := fun msgs =>
  if msgs.length < N then LLMResult.ok "t" [⟨"id0", "toolA", []⟩]
  else LLMResult.ok "done" []

/-- A tool executor answering every call with a fixed string. -/
def execConst : ToolExec := fun _ _ => "res"

/-- An LLM whose invocation always raises. -/
def failLLM : LLM := fun _ => LLMResult.failure

/-- An LLM that answers with empty content and no tool calls. -/
def emptyLLM : LLM := fun _ => LLMResult.ok "" []

/-- A discovery environment where only server `s1` answers. -/
def discOne : Discovery := fun name =>
  if name = "s1" then .ok ["t1"] else .error "connection failed"

/-- Two enabled servers, the second of which fails discovery under
    `discOne`. -/
def serversTwo : List MCPServerCfg :=
  [⟨"s1", "http://a", true⟩, ⟨"s2", "http://b", true⟩]

/-- A tool named `t` with one description. -/
def toolA1 : BaseTool := ⟨"t", "first"⟩

/-- A second tool with the same name `t` and another description. -/
def toolA2 : BaseTool := ⟨"t", "second"⟩

end Spec2Proof
namespace Spec2Proof

theorem assocGet_assocSet {α : Type} (l : List (String × α)) (k : String) (v : α) :
    assocGet (assocSet l k v) k = some v := by
  induction l with
  | nil => simp [assocSet, assocGet]
  | cons p rest ih =>
    by_cases h : p.1 = k
    · simp [assocSet, assocGet, h]
    · simp [assocSet, assocGet, h, ih]

/-- C2: the conditional router after `generate_response` returns `call_tools`
    exactly when the most recently appended message is an Assistant message
    with a non-empty `tool_calls` field, and `format_output` otherwise. -/
theorem router_iff_last_assistant_with_calls (msgs : List Message) :
    (should_call_tools msgs = Route.callTools ↔ lastIsAssistantWithCalls msgs = true) ∧
    (should_call_tools msgs = Route.formatOutput ↔ lastIsAssistantWithCalls msgs = false) := by
  unfold should_call_tools lastIsAssistantWithCalls
  cases h : msgs.getLast? with
  | none => simp
  | some m =>
    cases m with
    | assistant c tcs => cases tcs <;> simp [Message.toolCallsAttr]
    | system c => simp [Message.toolCallsAttr]
    | user c => simp [Message.toolCallsAttr]
    | toolResult i c => simp [Message.toolCallsAttr]

/-- C8 counterexample: registering a second tool under the name `t` is not
    rejected; it silently replaces the stored tool, its enabled status and
    its description. -/
theorem register_duplicate_overwrites_cex :
    get_tool (register_tool (register_tool ToolRegistry.empty toolA1 true) toolA2 false) "t"
      = some toolA2 ∧
    assocGet (register_tool (register_tool ToolRegistry.empty toolA1 true) toolA2 false).status "t"
      = some false ∧
    assocGet (register_tool (register_tool ToolRegistry.empty toolA1 true) toolA2 false).descriptions "t"
      = some "second" ∧
    toolA2 ≠ toolA1 := by
  refine ⟨by decide, by decide, by decide, by decide⟩

/-- C8 amended: `register_tool` is last-write-wins — after registering a
    tool, lookups under that tool's name yield the new tool, the new enabled
    status and the new description, whatever was registered before; no error
    is raised. -/
theorem register_tool_last_write_wins (r : ToolRegistry) (tool : BaseTool) (enabled : Bool) :
    get_tool (register_tool r tool enabled) tool.name = some tool ∧
    assocGet (register_tool r tool enabled).status tool.name = some enabled ∧
    assocGet (register_tool r tool enabled).descriptions tool.name = some tool.description := by
  refine ⟨?_, ?_, ?_⟩ <;> apply assocGet_assocSet

end Spec2Proof
namespace Spec2Proof

/-- C10: `chat` is atomic on error — when the workflow raises instead of
    completing, the fixed apology and an empty tool-call list are returned
    and the caller's conversation state keeps its old history; the history
    is overwritten exactly when the workflow completes. -/
theorem chat_atomic_on_error :
    (∀ (llm : LLM) (exec : ToolExec) (sp : String) (conv : List Message) (input : String)
      (fuel : Nat), (runTurn llm exec sp conv input fuel).completed = false →
        chat llm exec sp conv input fuel = ((chatApology, []), conv)) ∧
    (∀ (llm : LLM) (exec : ToolExec) (sp : String) (conv : List Message) (input : String)
      (fuel : Nat), (runTurn llm exec sp conv input fuel).completed = true →
        chat llm exec sp conv input fuel =
          (((runTurn llm exec sp conv input fuel).finalState.ai_response,
            (runTurn llm exec sp conv input fuel).finalState.tool_calls),
            (runTurn llm exec sp conv input fuel).finalState.messages)) := by
  constructor
  · intro llm exec sp conv input fuel h
    simp [chat, h]
  · intro llm exec sp conv input fuel h
    simp [chat, h]

@[simp]
theorem discOk_ok (ts : List String) : discOk (.ok ts) = true := rfl

@[simp]
theorem discOk_error (e : String) : discOk (.error e) = false := rfl

theorem multiGet_ok_iff (disc : Discovery) (servers : List MCPServerCfg) :
    discOk (multiServerGetTools disc servers) = servers.all (fun s => discOk (disc s.name)) := by
  induction servers with
  | nil => rfl
  | cons s rest ih =>
    cases h : disc s.name with
    | error e =>
      have hm : multiServerGetTools disc (s :: rest) = .error e := by
        simp [multiServerGetTools, h]
      simp [hm, List.all_cons, h]
    | ok ts =>
      cases h2 : multiServerGetTools disc rest with
      | error e =>
        have hm : multiServerGetTools disc (s :: rest) = .error e := by
          simp [multiServerGetTools, h, h2]
        rw [h2] at ih
        simp [hm, List.all_cons, h, ← ih]
      | ok rs =>
        have hm : multiServerGetTools disc (s :: rest) = .ok (ts ++ rs) := by
          simp [multiServerGetTools, h, h2]
        rw [h2] at ih
        simp [hm, List.all_cons, h, ← ih]

/-- C3 counterexample: with two enabled servers of which only `s1` connects,
    `initialize` fails as a whole and returns no tools, although at least
    one enabled server connected. -/
theorem init_single_failure_fails_all_cex :
    discOk (discOne "s1") = true ∧ serversTwo.head?.map (fun s => s.enabled) = some true ∧
    managerInit discOne serversTwo = (false, []) := by
  refine ⟨by decide, by decide, by decide⟩

/-- C3 amended: `initialize` returns ok iff the enabled-server list is
    non-empty and every enabled server's discovery succeeds — one failing
    server fails the whole initialization, and then the tool set is empty. -/
theorem init_ok_iff_all_enabled_connect (disc : Discovery) (servers : List MCPServerCfg) :
    ((managerInit disc servers).1 =
      (!(servers.filter (fun s => s.enabled)).isEmpty &&
        (servers.filter (fun s => s.enabled)).all (fun s => discOk (disc s.name)))) ∧
    ((servers.filter (fun s => s.enabled)).any (fun s => !discOk (disc s.name)) = true →
      (managerInit disc servers).2 = []) := by
  constructor
  · by_cases he : (servers.filter (fun s => s.enabled)).isEmpty
    · simp [managerInit, he]
    · have hm := multiGet_ok_iff disc (servers.filter (fun s => s.enabled))
      simp only [Bool.not_eq_true] at he
      cases h2 : multiServerGetTools disc (servers.filter (fun s => s.enabled)) with
      | ok ts =>
        rw [h2] at hm
        simp [managerInit, clientInit, he, h2, ← hm]
      | error e =>
        rw [h2] at hm
        simp [managerInit, clientInit, he, h2, ← hm]
  · intro h
    by_cases he : (servers.filter (fun s => s.enabled)).isEmpty
    · simp [managerInit, he]
    · rcases List.any_eq_true.mp h with ⟨x, hx, hb⟩
      have hdx : discOk (disc x.name) = false := by simpa using hb
      have hall : (servers.filter (fun s => s.enabled)).all
          (fun s => discOk (disc s.name)) = false := by
        apply List.all_eq_false.mpr
        exact ⟨x, hx, by simp [hdx]⟩
      have hm := multiGet_ok_iff disc (servers.filter (fun s => s.enabled))
      rw [hall] at hm
      cases h2 : multiServerGetTools disc (servers.filter (fun s => s.enabled)) with
      | ok ts => rw [h2] at hm; simp at hm
      | error e => simp [managerInit, clientInit, he, h2]

end Spec2Proof
namespace Spec2Proof

/-- C9: arguments of `get_current_time` are allow-listed — a format value
    off the allow-list behaves as the default `datetime` and a timezone
    value off its allow-list behaves as the default `local`, and the
    validators reject strings over the length bound and strings holding a
    blocked shell metacharacter. -/
theorem time_tool_allow_lists :
    (∀ f : String, f ∉ allowedFormats → ∀ (tz : Option String) (utcNow localNow : Now),
      get_current_time (some f) tz utcNow localNow =
        get_current_time (some "datetime") tz utcNow localNow) ∧
    (∀ t : String, t ∉ allowedTimezones → ∀ (fm : Option String) (utcNow localNow : Now),
      get_current_time fm (some t) utcNow localNow =
        get_current_time fm (some "local") utcNow localNow) ∧
    (∀ s : String, 20 < s.length → validate_format_input s = false) ∧
    (∀ (s : String) (c : Char), c ∈ metaChars → c ∈ s.data → validate_format_input s = false) ∧
    (∀ s : String, 10 < s.length → validate_timezone_input s = false) ∧
    (∀ (s : String) (c : Char), c ∈ metaChars → c ∈ s.data → validate_timezone_input s = false) := by
  refine ⟨?_, ?_, ?_, ?_, ?_, ?_⟩
  · intro f hf tz utcNow localNow
    have hc : allowedFormats.contains f = false := by simpa using hf
    by_cases h0 : f = ""
    · subst h0
      simp only [get_current_time]
      rfl
    · have h1 : coerceFormat (some f) = some "datetime" := by
        show (if !(f = "") && !(allowedFormats.contains f) then some "datetime" else some f)
          = some "datetime"
        rw [hc]
        simp [h0]
      have h2 : coerceFormat (some "datetime") = some "datetime" := rfl
      simp only [get_current_time]
      rw [h1, h2]
  · intro t ht fm utcNow localNow
    have hc : allowedTimezones.contains t = false := by simpa using ht
    by_cases h0 : t = ""
    · subst h0
      have h1 : coerceTimezone (some "") = some "" := rfl
      have h2 : coerceTimezone (some "local") = some "local" := rfl
      have h3 : (some "" : Option String) = some "utc" ↔ False := by simp
      have h4 : (some "local" : Option String) = some "utc" ↔ False := by simp
      simp only [get_current_time]
      rw [h1, h2]
      simp only [h3, h4]
    · have h1 : coerceTimezone (some t) = some "local" := by
        show (if !(t = "") && !(allowedTimezones.contains t) then some "local" else some t)
          = some "local"
        rw [hc]
        simp [h0]
      have h2 : coerceTimezone (some "local") = some "local" := rfl
      simp only [get_current_time]
      rw [h1, h2]
  · intro s h
    have he : validate_format_input s =
        if 20 < s.length then false
        else if s.data.any (fun c => metaChars.contains c) then false
        else allowedFormats.contains s := rfl
    rw [he, if_pos h]
  · intro s c hc hs
    have hany : s.data.any (fun c => metaChars.contains c) = true :=
      List.any_eq_true.mpr ⟨c, hs, by simpa using hc⟩
    have he : validate_format_input s =
        if 20 < s.length then false
        else if s.data.any (fun c => metaChars.contains c) then false
        else allowedFormats.contains s := rfl
    rw [he]
    by_cases hl : 20 < s.length
    · rw [if_pos hl]
    · rw [if_neg hl, hany]
      rfl
  · intro s h
    have he : validate_timezone_input s =
        if 10 < s.length then false
        else if s.data.any (fun c => metaChars.contains c) then false
        else allowedTimezones.contains s := rfl
    rw [he, if_pos h]
  · intro s c hc hs
    have hany : s.data.any (fun c => metaChars.contains c) = true :=
      List.any_eq_true.mpr ⟨c, hs, by simpa using hc⟩
    have he : validate_timezone_input s =
        if 10 < s.length then false
        else if s.data.any (fun c => metaChars.contains c) then false
        else allowedTimezones.contains s := rfl
    rw [he]
    by_cases hl : 10 < s.length
    · rw [if_pos hl]
    · rw [if_neg hl, hany]
      rfl

end Spec2Proof
namespace Spec2Proof

theorem toolResult_not_system (m : Message) (h : m.isToolResult = true) :
    m.isSystem = false := by
  cases m <;> simp_all [Message.isToolResult, Message.isSystem]

theorem sysOnlyAtHead_append (msgs extra : List Message)
    (h1 : sysOnlyAtHead msgs = true) (h2 : ∀ m ∈ extra, m.isSystem = false) :
    sysOnlyAtHead (msgs ++ extra) = true := by
  cases msgs with
  | nil =>
    simp only [List.nil_append, sysOnlyAtHead]
    exact List.all_eq_true.mpr fun m hm => by
      simp [h2 m (List.drop_subset 1 extra hm)]
  | cons a rest =>
    have h1' : rest.all (fun m => !m.isSystem) = true := by
      simpa [sysOnlyAtHead] using h1
    have h2' : extra.all (fun m => !m.isSystem) = true :=
      List.all_eq_true.mpr fun m hm => by simp [h2 m hm]
    simp [sysOnlyAtHead, List.all_append, h1', h2']

theorem gen_reach (llm : LLM) (st : AgentState) (h : Reachable st.messages) :
    Reachable (generate_response llm st).messages := by
  unfold generate_response
  cases hr : llm st.messages with
  | failure => exact Reachable.gen llmApology [] st.messages h
  | ok content tcs => simpa using Reachable.gen content tcs st.messages h

theorem toolMessages_all (exec : ToolExec) (msgs : List Message) :
    ∀ m ∈ toolMessages exec msgs, m.isToolResult = true := by
  unfold toolMessages
  cases h : msgs.getLast? with
  | none => simp
  | some m =>
    cases m with
    | assistant c tcs =>
      intro m hm
      rcases List.mem_map.mp hm with ⟨tc, _, rfl⟩
      rfl
    | system c => simp
    | user c => simp
    | toolResult i c => simp

theorem runLoop_reach (llm : LLM) (exec : ToolExec) :
    ∀ (fuel : Nat) (st : AgentState), Reachable st.messages →
      Reachable ((runLoop llm exec fuel st).finalState.messages) := by
  intro fuel
  induction fuel with
  | zero => intro st h; simpa [runLoop] using h
  | succ f ih =>
    intro st h
    simp only [runLoop]
    cases hr : should_call_tools (generate_response llm st).messages with
    | formatOutput =>
      simpa [format_output] using gen_reach llm st h
    | callTools =>
      apply ih
      exact Reachable.tools _ _ (gen_reach llm st h) (toolMessages_all exec _)

/-- C6: a System message can occur only at index 0 and at most once — every
    reachable history satisfies `sysOnlyAtHead`, and one workflow turn takes
    reachable histories to reachable histories, so no operation introduces a
    System message at a later position. -/
theorem system_only_at_index_zero :
    (∀ msgs, Reachable msgs → sysOnlyAtHead msgs = true) ∧
    (∀ (llm : LLM) (exec : ToolExec) (sp : String) (conv : List Message) (input : String)
      (fuel : Nat), Reachable conv →
        Reachable (runTurn llm exec sp conv input fuel).finalState.messages) := by
  constructor
  · intro msgs h
    induction h with
    | empty => rfl
    | proc sp input msgs hr ih =>
      by_cases he : msgs.isEmpty
      · have : msgs = [] := List.isEmpty_iff.mp he
        subst this
        rfl
      · rw [if_neg (by simpa using he)]
        exact sysOnlyAtHead_append _ _ ih (by rintro m hm; simp at hm; subst hm; rfl)
    | gen content tcs msgs hr ih =>
      exact sysOnlyAtHead_append _ _ ih (by rintro m hm; simp at hm; subst hm; rfl)
    | tools tms msgs hr htms ih =>
      exact sysOnlyAtHead_append _ _ ih fun m hm => toolResult_not_system m (htms m hm)
  · intro llm exec sp conv input fuel h
    have hp : Reachable (process_input sp (initState sp conv input)).messages := by
      simpa [process_input, initState] using Reachable.proc sp input conv h
    simpa [runTurn] using runLoop_reach llm exec fuel _ hp

end Spec2Proof
namespace Spec2Proof

/-- C7: when the LLM invocation inside `generate_response` raises, the node
    appends the fixed apology as an Assistant message, clears the pending
    tool calls, makes exactly one LLM call (no retry), and the turn
    continues through `format_output` to normal completion. -/
theorem llm_failure_apology (llm : LLM) (exec : ToolExec) (sp : String)
    (conv : List Message) (input : String) (fuel : Nat)
    (h : llm (process_input sp (initState sp conv input)).messages = LLMResult.failure) :
    (runTurn llm exec sp conv input (fuel + 1)).llmCalls = 1 ∧
    (runTurn llm exec sp conv input (fuel + 1)).rounds = 0 ∧
    (runTurn llm exec sp conv input (fuel + 1)).completed = true ∧
    (runTurn llm exec sp conv input (fuel + 1)).finalState.messages =
      (process_input sp (initState sp conv input)).messages ++ [Message.assistant llmApology []] ∧
    (runTurn llm exec sp conv input (fuel + 1)).finalState.tool_calls = [] ∧
    (runTurn llm exec sp conv input (fuel + 1)).finalState.ai_response =
      improve_line_breaks llmApology := by
  have hgen : generate_response llm (process_input sp (initState sp conv input)) =
      { process_input sp (initState sp conv input) with
          messages := (process_input sp (initState sp conv input)).messages ++
            [Message.assistant llmApology []],
          ai_response := llmApology, tool_calls := [] } := by
    unfold generate_response
    rw [h]
  have hroute : should_call_tools ((process_input sp (initState sp conv input)).messages ++
      [Message.assistant llmApology []]) = Route.formatOutput := by
    unfold should_call_tools
    rw [List.getLast?_concat]
    rfl
  simp [runTurn, runLoop, hgen, hroute, format_output]

/-- C7 witness: a concrete turn whose LLM raises at once. -/
theorem llm_failure_apology_witness :
    (runTurn failLLM execConst "sys" [] "hi" 1).llmCalls = 1 ∧
    (runTurn failLLM execConst "sys" [] "hi" 1).rounds = 0 ∧
    (runTurn failLLM execConst "sys" [] "hi" 1).completed = true ∧
    (runTurn failLLM execConst "sys" [] "hi" 1).finalState.messages =
      (process_input "sys" (initState "sys" [] "hi")).messages ++
        [Message.assistant llmApology []] ∧
    (runTurn failLLM execConst "sys" [] "hi" 1).finalState.tool_calls = [] ∧
    (runTurn failLLM execConst "sys" [] "hi" 1).finalState.ai_response =
      improve_line_breaks llmApology :=
  llm_failure_apology failLLM execConst "sys" [] "hi" 0 rfl

end Spec2Proof
namespace Spec2Proof

theorem oracleLen_loop (N : Nat) (exec : ToolExec) :
    ∀ (j fuel : Nat) (st : AgentState), st.messages.length + 2 * j = N → j < fuel →
      (runLoop (oracleLen N) exec fuel st).rounds = j ∧
      (runLoop (oracleLen N) exec fuel st).completed = true := by
  intro j
  induction j with
  | zero =>
    intro fuel st hlen hf
    match fuel, hf with
    | f + 1, _ =>
      have hor : oracleLen N st.messages = LLMResult.ok "done" [] := by
        unfold oracleLen
        rw [if_neg (by omega)]
      have hgen : generate_response (oracleLen N) st =
          { st with
            messages := st.messages ++ [Message.assistant "done" []],
            ai_response := "done",
            tool_calls := findToolCalls (lastFiveRev (st.messages ++ [Message.assistant "done" []])) } := by
        unfold generate_response
        rw [hor]
        simp
      have hroute : should_call_tools (st.messages ++ [Message.assistant "done" []]) =
          Route.formatOutput := by
        unfold should_call_tools
        rw [List.getLast?_concat]
        rfl
      simp [runLoop, hgen, hroute]
  | succ j ih =>
    intro fuel st hlen hf
    match fuel, hf with
    | f + 1, hf =>
      have hor : oracleLen N st.messages = LLMResult.ok "t" [⟨"id0", "toolA", []⟩] := by
        unfold oracleLen
        rw [if_pos (by omega)]
      have hgen : generate_response (oracleLen N) st =
          { st with
            messages := st.messages ++ [Message.assistant "t" [⟨"id0", "toolA", []⟩]],
            ai_response := "t", tool_calls := [⟨"id0", "toolA", []⟩] } := by
        unfold generate_response
        rw [hor]
        simp
      have hroute : should_call_tools (st.messages ++ [Message.assistant "t" [⟨"id0", "toolA", []⟩]]) =
          Route.callTools := by
        unfold should_call_tools
        rw [List.getLast?_concat]
        rfl
      have htms : toolMessages exec (st.messages ++ [Message.assistant "t" [⟨"id0", "toolA", []⟩]]) =
          [Message.toolResult "id0" (exec "toolA" [])] := by
        unfold toolMessages
        rw [List.getLast?_concat]
        rfl
      have hrec := ih f
        { st with
          messages := (st.messages ++ [Message.assistant "t" [⟨"id0", "toolA", []⟩]]) ++
            [Message.toolResult "id0" (exec "toolA" [])],
          ai_response := "t", tool_calls := [⟨"id0", "toolA", []⟩] }
        (by simp; omega) (by omega)
      have h1 := hrec.1
      have h2 := hrec.2
      simp only [List.append_assoc, List.cons_append, List.nil_append] at h1 h2
      simp only [runLoop, hgen, hroute, htms]
      constructor
      · simp [h1]
      · simp [h2]

/-- C1 counterexample: an LLM that keeps requesting a tool until the history
    holds twenty messages drives the workflow through nine
    `generate_response → call_tools` round trips — more than the claimed
    bound of eight — and the turn still ends through `format_output` with no
    `LoopLimitExceeded` event (no such event exists in the code). -/
theorem loop_bound_exceeded_cex :
    8 < (runTurn (oracleLen 20) execConst "sys" [] "hi" 30).rounds ∧
    (runTurn (oracleLen 20) execConst "sys" [] "hi" 30).completed = true := by
  exact ⟨by decide, by decide⟩

/-- C1 amended: the workflow enforces no bound on the tool loop — for every
    `n`, an LLM that requests tools for `n` rounds and then stops yields a
    turn with exactly `n` `call_tools` runs that terminates only because the
    router finally picks `format_output`. -/
theorem loop_unbounded (n : Nat) (exec : ToolExec) (sp input : String) :
    (runTurn (oracleLen (2 * n + 2)) exec sp [] input (n + 1)).rounds = n ∧
    (runTurn (oracleLen (2 * n + 2)) exec sp [] input (n + 1)).completed = true := by
  have h := oracleLen_loop (2 * n + 2) exec n (n + 1)
    (process_input sp (initState sp [] input)) (by simp [process_input, initState]; omega)
    (by omega)
  simpa [runTurn] using h

end Spec2Proof
namespace Spec2Proof

theorem findToolCalls_nil (l : List Message)
    (h : ∀ m ∈ l, m.isToolResult = true) : findToolCalls l = [] := by
  induction l with
  | nil => rfl
  | cons m rest ih =>
    have hm := h m (by simp)
    cases m with
    | toolResult i c =>
      simp only [findToolCalls, Message.toolCallsAttr]
      exact ih fun x hx => h x (by simp [hx])
    | system c => simp [Message.isToolResult] at hm
    | user c => simp [Message.isToolResult] at hm
    | assistant c tcs => simp [Message.isToolResult] at hm

theorem execEvents_nil (msgs : List Message)
    (h : msgs.all (fun m => m.isToolResult) = true) : execEvents msgs = [] := by
  unfold execEvents
  by_cases he : msgs.isEmpty
  · simp [he]
  · rw [if_neg (by simpa using he)]
    rw [findToolCalls_nil]
    · rfl
    · intro m hm
      exact List.all_eq_true.mp h m (List.mem_reverse.mp hm)

theorem tokenEvents_text (line : String) :
    (tokenEvents line).all
      (fun e => !e.isTerminal && !e.isPending && !e.isExecuting) = true := by
  unfold tokenEvents
  by_cases h : (pyStrip line.data).isEmpty
  · simp [h]
  · rw [if_neg h]
    cases hs : smart_split_for_streaming line with
    | nil => rfl
    | cons t ts =>
      apply List.all_eq_true.mpr
      intro e he
      simp only [List.mem_cons] at he
      rcases he with rfl | he
      · rfl
      · rcases List.mem_map.mp he with ⟨tok, _, rfl⟩
        rfl

theorem lineEvents_text (lines : List String) :
    (lineEvents lines).all
      (fun e => !e.isTerminal && !e.isPending && !e.isExecuting) = true := by
  induction lines with
  | nil => rfl
  | cons l rest ih =>
    cases rest with
    | nil => simpa [lineEvents] using tokenEvents_text l
    | cons l2 rest2 =>
      simp only [lineEvents]
      apply List.all_eq_true.mpr
      intro e he
      simp only [List.mem_append, List.mem_cons] at he
      rcases he with h1 | (rfl | h2)
      · exact List.all_eq_true.mp (tokenEvents_text l) e h1
      · rfl
      · exact List.all_eq_true.mp ih e h2

theorem filter_ite_single (p : Event → Bool) (b : Bool) (x : Event) (h : p x = false) :
    (if b then [x] else []).filter p = [] := by
  cases b <;> simp [h]

theorem filter_all_false (p : Event → Bool) (l : List Event)
    (h : l.all (fun e => !p e) = true) : l.filter p = [] := by
  induction l with
  | nil => rfl
  | cons e rest ih =>
    have h' := List.all_eq_true.mp h
    have h1 : p e = false := by simpa using h' e (by simp)
    have h2 : rest.all (fun x => !p x) = true :=
      List.all_eq_true.mpr fun x hx => h' x (by simp [hx])
    simp only [List.filter_cons]
    rw [if_neg (by simp [h1])]
    exact ih h2

end Spec2Proof
namespace Spec2Proof

theorem lineEvents_filter_terminal (L : List String) :
    (lineEvents L).filter Event.isTerminal = [] := by
  apply filter_all_false
  apply List.all_eq_true.mpr
  intro e he
  have h := List.all_eq_true.mp (lineEvents_text L) e he
  simp at h
  simp [h.1.1]

theorem lineEvents_filter_pending (L : List String) :
    (lineEvents L).filter Event.isPending = [] := by
  apply filter_all_false
  apply List.all_eq_true.mpr
  intro e he
  have h := List.all_eq_true.mp (lineEvents_text L) e he
  simp at h
  simp [h.1.2]

theorem lineEvents_filter_executing (L : List String) :
    (lineEvents L).filter Event.isExecuting = [] := by
  apply filter_all_false
  apply List.all_eq_true.mpr
  intro e he
  have h := List.all_eq_true.mp (lineEvents_text L) e he
  simp at h
  simp [h.2]

theorem goEvents_spec (debug : Bool) :
    ∀ (chunks : List Chunk) (td fs : Bool),
      chunks.all chunkToolResultsOnly = true →
      (((goEvents debug td fs chunks).1.filter Event.isTerminal).length
        = if (goEvents debug td fs chunks).2 then 1 else 0) ∧
      (((goEvents debug td fs chunks).1.filter Event.isPending).length
        ≤ if td then 0 else 1) ∧
      ((goEvents debug td fs chunks).1.filter Event.isExecuting).length = 0 := by
  intro chunks
  induction chunks with
  | nil =>
    intro td fs _
    refine ⟨by simp [goEvents], by cases td <;> simp [goEvents], by simp [goEvents]⟩
  | cons c rest ih =>
    intro td fs hall
    have hc : chunkToolResultsOnly c = true := List.all_eq_true.mp hall c (by simp)
    have hrest : rest.all chunkToolResultsOnly = true :=
      List.all_eq_true.mpr fun x hx => List.all_eq_true.mp hall x (by simp [hx])
    cases c with
    | procInput m =>
      simpa only [goEvents] using ih td fs hrest
    | genResponse m ai tcs =>
      obtain ⟨ih1, ih2, ih3⟩ := ih (td || !tcs.isEmpty) (fs || !(ai = "")) hrest
      cases hr : goEvents debug (td || !tcs.isEmpty) (fs || !(ai = "")) rest with
      | mk es done =>
        rw [hr] at ih1 ih2 ih3
        dsimp only at ih1 ih2 ih3
        simp only [goEvents, hr]
        have e1t : (if debug then [Event.workflowStep "generate_response" "started"]
            else []).filter Event.isTerminal = [] := filter_ite_single _ _ _ rfl
        have e2t : (if !tcs.isEmpty && !td then [Event.toolsPending tcs debug]
            else []).filter Event.isTerminal = [] := filter_ite_single _ _ _ rfl
        have e3t : (if !(ai = "") && !fs then [Event.aiResponseReady ai]
            else []).filter Event.isTerminal = [] := filter_ite_single _ _ _ rfl
        have e1p : (if debug then [Event.workflowStep "generate_response" "started"]
            else []).filter Event.isPending = [] := filter_ite_single _ _ _ rfl
        have e3p : (if !(ai = "") && !fs then [Event.aiResponseReady ai]
            else []).filter Event.isPending = [] := filter_ite_single _ _ _ rfl
        have e1x : (if debug then [Event.workflowStep "generate_response" "started"]
            else []).filter Event.isExecuting = [] := filter_ite_single _ _ _ rfl
        have e2x : (if !tcs.isEmpty && !td then [Event.toolsPending tcs debug]
            else []).filter Event.isExecuting = [] := filter_ite_single _ _ _ rfl
        have e3x : (if !(ai = "") && !fs then [Event.aiResponseReady ai]
            else []).filter Event.isExecuting = [] := filter_ite_single _ _ _ rfl
        refine ⟨?_, ?_, ?_⟩
        · simp only [List.filter_append, List.length_append, e1t, e2t, e3t,
            List.length_nil, Nat.zero_add]
          exact ih1
        · simp only [List.filter_append, List.length_append, e1p, e3p,
            List.length_nil, Nat.zero_add, Nat.add_zero]
          have hp2 : (List.filter Event.isPending
              (if !tcs.isEmpty && !td then [Event.toolsPending tcs debug] else [])).length
              = if !tcs.isEmpty && !td then 1 else 0 := by
            cases h : (!tcs.isEmpty && !td) <;> simp [h, Event.isPending]
          rw [hp2]
          cases td with
          | true =>
            have hb1 : (true || !tcs.isEmpty) = true := rfl
            rw [hb1] at ih2
            have hb2 : (!tcs.isEmpty && !true) = false := by
              cases tcs.isEmpty <;> rfl
            rw [hb2]
            simpa using ih2
          | false =>
            cases htc : tcs.isEmpty with
            | true =>
              have hb1 : (false || !tcs.isEmpty) = false := by rw [htc]; rfl
              rw [hb1] at ih2
              simpa [htc] using ih2
            | false =>
              have hb1 : (false || !tcs.isEmpty) = true := by rw [htc]; rfl
              rw [hb1] at ih2
              simpa [htc] using ih2
        · simp only [List.filter_append, List.length_append, e1x, e2x, e3x,
            List.length_nil, Nat.zero_add]
          exact ih3
    | callTools msgs =>
      have hmsgs : msgs.all (fun m => m.isToolResult) = true := by
        simpa [chunkToolResultsOnly] using hc
      have hex : execEvents msgs = [] := execEvents_nil msgs hmsgs
      obtain ⟨ih1, ih2, ih3⟩ := ih td fs hrest
      cases hr : goEvents debug td fs rest with
      | mk es done =>
        rw [hr] at ih1 ih2 ih3
        dsimp only at ih1 ih2 ih3
        simp only [goEvents, hr, hex]
        have e1t : (if debug then [Event.workflowStep "call_tools" "started"]
            else []).filter Event.isTerminal = [] := filter_ite_single _ _ _ rfl
        have e2t : (if debug then [Event.workflowStep "call_tools" "completed"]
            else []).filter Event.isTerminal = [] := filter_ite_single _ _ _ rfl
        have e1p : (if debug then [Event.workflowStep "call_tools" "started"]
            else []).filter Event.isPending = [] := filter_ite_single _ _ _ rfl
        have e2p : (if debug then [Event.workflowStep "call_tools" "completed"]
            else []).filter Event.isPending = [] := filter_ite_single _ _ _ rfl
        have e1x : (if debug then [Event.workflowStep "call_tools" "started"]
            else []).filter Event.isExecuting = [] := filter_ite_single _ _ _ rfl
        have e2x : (if debug then [Event.workflowStep "call_tools" "completed"]
            else []).filter Event.isExecuting = [] := filter_ite_single _ _ _ rfl
        refine ⟨?_, ?_, ?_⟩
        · simp only [List.filter_append, List.length_append, e1t, e2t,
            List.filter_nil, List.length_nil, Nat.zero_add, Nat.add_zero]
          exact ih1
        · simp only [List.filter_append, List.length_append, e1p, e2p,
            List.filter_nil, List.length_nil, Nat.zero_add, Nat.add_zero]
          exact ih2
        · simp only [List.filter_append, List.length_append, e1x, e2x,
            List.filter_nil, List.length_nil, Nat.zero_add, Nat.add_zero]
          exact ih3
    | formatOut ai tcs =>
      by_cases hai : ai = ""
      · obtain ⟨ih1, ih2, ih3⟩ := ih td fs hrest
        cases hr : goEvents debug td fs rest with
        | mk es done =>
          rw [hr] at ih1 ih2 ih3
          dsimp only at ih1 ih2 ih3
          simp only [goEvents, hr, if_pos hai]
          have e1t : (if debug then [Event.workflowStep "format_output" "started"]
              else []).filter Event.isTerminal = [] := filter_ite_single _ _ _ rfl
          have e1p : (if debug then [Event.workflowStep "format_output" "started"]
              else []).filter Event.isPending = [] := filter_ite_single _ _ _ rfl
          have e1x : (if debug then [Event.workflowStep "format_output" "started"]
              else []).filter Event.isExecuting = [] := filter_ite_single _ _ _ rfl
          refine ⟨?_, ?_, ?_⟩
          · simp only [List.filter_append, List.length_append, e1t,
              List.length_nil, Nat.zero_add]
            exact ih1
          · simp only [List.filter_append, List.length_append, e1p,
              List.length_nil, Nat.zero_add]
            exact ih2
          · simp only [List.filter_append, List.length_append, e1x,
              List.length_nil, Nat.zero_add]
            exact ih3
      · simp only [goEvents, if_neg hai]
        have e1t : (if debug then [Event.workflowStep "format_output" "started"]
            else []).filter Event.isTerminal = [] := filter_ite_single _ _ _ rfl
        have e1p : (if debug then [Event.workflowStep "format_output" "started"]
            else []).filter Event.isPending = [] := filter_ite_single _ _ _ rfl
        have e1x : (if debug then [Event.workflowStep "format_output" "started"]
            else []).filter Event.isExecuting = [] := filter_ite_single _ _ _ rfl
        refine ⟨?_, ?_, ?_⟩
        · simp [List.filter_append, e1t, lineEvents_filter_terminal, Event.isTerminal]
        · simp [List.filter_append, e1p, lineEvents_filter_pending, Event.isPending]
        · simp [List.filter_append, e1x, lineEvents_filter_executing, Event.isExecuting]

end Spec2Proof
namespace Spec2Proof

theorem runLoop_chunks_good (llm : LLM) (exec : ToolExec) :
    ∀ (fuel : Nat) (st : AgentState),
      ((runLoop llm exec fuel st).chunks).all chunkToolResultsOnly = true := by
  intro fuel
  induction fuel with
  | zero => intro st; rfl
  | succ f ih =>
    intro st
    simp only [runLoop]
    cases hr : should_call_tools (generate_response llm st).messages with
    | formatOutput => rfl
    | callTools =>
      simp only [List.all_cons]
      refine Bool.and_eq_true .. |>.mpr ⟨rfl, Bool.and_eq_true .. |>.mpr ⟨?_, ih _⟩⟩
      show (toolMessages exec (generate_response llm st).messages).all
        (fun m => m.isToolResult) = true
      exact List.all_eq_true.mpr (toolMessages_all exec _)

theorem runTurn_chunks_good (llm : LLM) (exec : ToolExec) (sp : String)
    (conv : List Message) (input : String) (fuel : Nat) :
    ((runTurn llm exec sp conv input fuel).chunks).all chunkToolResultsOnly = true := by
  simp only [runTurn, List.all_cons]
  refine Bool.and_eq_true .. |>.mpr ⟨rfl, runLoop_chunks_good llm exec fuel _⟩

theorem eventsOfTurn_spec (debug : Bool) (chunks : List Chunk) (failed : Bool)
    (h : chunks.all chunkToolResultsOnly = true) :
    ((eventsOfTurn debug chunks failed).filter Event.isTerminal).length ≤ 1 ∧
    ((eventsOfTurn debug chunks failed).filter Event.isPending).length ≤ 1 ∧
    ((eventsOfTurn debug chunks failed).filter Event.isExecuting).length = 0 := by
  obtain ⟨h1, h2, h3⟩ := goEvents_spec debug chunks false false h
  unfold eventsOfTurn
  cases hg : goEvents debug false false chunks with
  | mk es done =>
    rw [hg] at h1 h2 h3
    dsimp only at h1 h2 h3
    cases done with
    | true =>
      exact ⟨by simp [h1], by simpa using h2, h3⟩
    | false =>
      cases failed with
      | false =>
        exact ⟨by simp [h1], by simpa using h2, h3⟩
      | true =>
        refine ⟨?_, ?_, ?_⟩
        · simp [List.filter_append, h1, Event.isTerminal]
        · simp only [List.filter_append, List.length_append, if_true]
          simp [Event.isPending]
          simpa using h2
        · simp only [List.filter_append, List.length_append, if_true]
          simp [Event.isExecuting, h3]

/-- C5 amended: the event stream of one streamed turn holds at most one
    terminal event (`streaming_complete` or `error`) — a turn whose final
    formatted answer is empty ends with none — `tools_pending` appears at
    most once, and no `tool_executing` event is ever emitted (the
    `call_tools` updates carry only tool-result messages, which the
    generator's scan ignores), so every `tool_executing` is vacuously
    preceded by a `tools_pending` naming it. -/
theorem event_stream_shape (llm : LLM) (exec : ToolExec) (sp : String)
    (conv : List Message) (input : String) (fuel : Nat) (debug : Bool) :
    ((eventsOfRun llm exec sp conv input fuel debug).filter Event.isTerminal).length ≤ 1 ∧
    ((eventsOfRun llm exec sp conv input fuel debug).filter Event.isPending).length ≤ 1 ∧
    ((eventsOfRun llm exec sp conv input fuel debug).filter Event.isExecuting).length = 0 := by
  unfold eventsOfRun
  exact eventsOfTurn_spec debug _ _ (runTurn_chunks_good llm exec sp conv input fuel)

/-- C5 counterexample: when the LLM answers with empty content and no tool
    calls, the turn completes but the event stream is empty — it holds no
    terminal event at all, against the claimed exactly-one. -/
theorem empty_response_no_terminal_cex :
    eventsOfRun emptyLLM execConst "sys" [] "hi" 5 false = [] ∧
    (runTurn emptyLLM execConst "sys" [] "hi" 5).completed = true ∧
    ((eventsOfRun emptyLLM execConst "sys" [] "hi" 5 false).filter
      Event.isTerminal).length = 0 := by
  exact ⟨by decide, by decide, by decide⟩

end Spec2Proof
namespace Spec2Proof

theorem sub1_nil (f : Nat) : sub1 f [] = [] := by cases f <;> rfl

theorem sub2_nil (f : Nat) : sub2 f [] = [] := by cases f <;> rfl

theorem sub3a_nil (f : Nat) : sub3a f [] = [] := by cases f <;> rfl

theorem sub3b_nil (f : Nat) : sub3b f [] = [] := by cases f <;> rfl

theorem sub4a_nil (f : Nat) : sub4a f [] = [] := by cases f <;> rfl

theorem sub4b_nil (f : Nat) : sub4b f [] = [] := by cases f <;> rfl

theorem sub5_nil (f : Nat) : sub5 f [] = [] := by cases f <;> rfl

theorem sub6_nil (f : Nat) : sub6 f [] = [] := by cases f <;> rfl

theorem hashMatch_none (l : List Char) (h : '#' ∉ l) : hashMatch l = none := by
  unfold hashMatch
  cases l with
  | nil => rfl
  | cons c rest =>
    have hc : c ≠ '#' := fun he => h (by simp [he])
    rw [List.takeWhile_cons_of_neg (by simpa using hc)]
    rfl

theorem sub3b_id (f : Nat) : ∀ l, sub3b f l = l := by
  induction f with
  | zero => intro l; rfl
  | succ f ih =>
    intro l
    cases l with
    | nil => rfl
    | cons a l' =>
      simp only [sub3b]
      split
      · split <;> simp [ih]
      · simp [ih]

end Spec2Proof
namespace Spec2Proof

theorem sub1_nohash (f : Nat) : ∀ l, '#' ∉ l → sub1 f l = l := by
  induction f with
  | zero => intro l _; rfl
  | succ f ih =>
    intro l h
    cases l with
    | nil => rfl
    | cons a l' =>
      have h' : '#' ∉ l' := fun hm => h (List.mem_cons_of_mem a hm)
      simp only [sub1]
      split
      · rename_i rest
        rw [hashMatch_none rest (fun hm => h' (List.mem_cons_of_mem _ hm))]
        split <;> simp [ih _ h']
      · simp [ih _ h']

theorem sub2_nohash (f : Nat) : ∀ l, '#' ∉ l → sub2 f l = l := by
  induction f with
  | zero => intro l _; rfl
  | succ f ih =>
    intro l h
    cases l with
    | nil => rfl
    | cons c l' =>
      have h' : '#' ∉ l' := fun hm => h (List.mem_cons_of_mem c hm)
      have hc : ¬(c = '#') := fun he => h (by simp [he])
      simp only [sub2]
      rw [if_neg hc]
      simp [ih _ h']

theorem sub3a_nostar (f : Nat) : ∀ l, '*' ∉ l → sub3a f l = l := by
  induction f with
  | zero => intro l _; rfl
  | succ f ih =>
    intro l h
    cases l with
    | nil => rfl
    | cons a l' =>
      have h' : '*' ∉ l' := fun hm => h (List.mem_cons_of_mem a hm)
      simp only [sub3a]
      split
      · simp at h'
      · simp [ih _ h']

theorem boldAtFront_none (l : List Char) (h : '*' ∉ l) : boldAtFront l = none := by
  unfold boldAtFront
  split
  · simp at h
  · rfl

theorem boldAfterWs_none (l : List Char) (h : '*' ∉ l) : boldAfterWs l = none :=
  boldAtFront_none _ fun hm => h (List.drop_subset _ _ hm)

theorem sub4a_nostar (f : Nat) : ∀ l, '*' ∉ l → sub4a f l = l := by
  induction f with
  | zero => intro l _; rfl
  | succ f ih =>
    intro l h
    cases l with
    | nil => rfl
    | cons c l' =>
      have h' : '*' ∉ l' := fun hm => h (List.mem_cons_of_mem c hm)
      simp only [sub4a]
      rw [boldAfterWs_none l' h']
      by_cases hsp : pySpace c <;> simp [hsp, ih _ h']

theorem sub4b_nostar (f : Nat) : ∀ l, '*' ∉ l → sub4b f l = l := by
  induction f with
  | zero => intro l _; rfl
  | succ f ih =>
    intro l h
    cases l with
    | nil => rfl
    | cons c l' =>
      have h' : '*' ∉ l' := fun hm => h (List.mem_cons_of_mem c hm)
      simp only [sub4b]
      rw [boldAtFront_none (c :: l') h]
      simp [ih _ h']

theorem sub5_nostar (f : Nat) : ∀ l, '*' ∉ l → sub5 f l = l := by
  induction f with
  | zero => intro l _; rfl
  | succ f ih =>
    intro l h
    cases l with
    | nil => rfl
    | cons c l' =>
      have h' : '*' ∉ l' := fun hm => h (List.mem_cons_of_mem c hm)
      simp only [sub5]
      rw [boldAtFront_none (c :: l') h]
      simp [ih _ h']

end Spec2Proof
namespace Spec2Proof

theorem dropWhile_head_ne (p : Char → Bool) :
    ∀ (l : List Char) (a : Char), (l.dropWhile p).head? = some a → p a = false := by
  intro l
  induction l with
  | nil => intro a h; simp at h
  | cons c rest ih =>
    intro a h
    by_cases hp : p c
    · rw [List.dropWhile_cons_of_pos hp] at h
      exact ih a h
    · rw [List.dropWhile_cons_of_neg hp] at h
      simp at h
      subst h
      simpa using hp

theorem sub6_head (f : Nat) (l : List Char) : (sub6 f l).head? = l.head? := by
  cases f with
  | zero => rfl
  | succ f =>
    unfold sub6
    split
    · rfl
    · rfl
    · rfl

theorem sub6_ne_nil (f : Nat) (l : List Char) (h : l ≠ []) : sub6 f l ≠ [] := by
  intro he
  have hh := sub6_head f l
  rw [he] at hh
  simp only [List.head?_nil] at hh
  exact h (List.head?_eq_none_iff.mp hh.symm)

theorem sub6_take1 (f : Nat) (l : List Char) : (sub6 f l).take 1 = l.take 1 := by
  rw [List.take_one, List.take_one, sub6_head]

theorem sub6_take2 (f : Nat) (l : List Char) : (sub6 f l).take 2 = l.take 2 := by
  cases f with
  | zero => rfl
  | succ f =>
    unfold sub6
    split
    · rfl
    · rename_i c l2 hcomp
      show (c :: sub6 f l2).take 2 = (c :: l2).take 2
      rw [show (2 : Nat) = 1 + 1 from rfl]
      rw [List.take_succ_cons, List.take_succ_cons, sub6_take1]
    · rfl

theorem getLast_all_nl (l : List Char) (h : l ≠ []) (hall : ∀ x ∈ l, x = '\n') :
    l.getLast? = some '\n' := by
  rw [List.getLast?_eq_getLast l h]
  exact congrArg some (hall _ (List.getLast_mem h))

theorem sub6_getLast (f : Nat) : ∀ l, (sub6 f l).getLast? = l.getLast? := by
  induction f with
  | zero => intro l; rfl
  | succ f ih =>
    intro l
    unfold sub6
    split
    · rename_i r
      rcases hr : r.dropWhile (fun c => c = '\n') with _ | ⟨d, r2⟩
      · have hall : ∀ x ∈ ('\n' :: '\n' :: '\n' :: r : List Char), x = '\n' := by
          intro x hx
          rcases List.mem_cons.mp hx with rfl | hx
          · rfl
          rcases List.mem_cons.mp hx with rfl | hx
          · rfl
          rcases List.mem_cons.mp hx with rfl | hx
          · rfl
          have hsplit := List.takeWhile_append_dropWhile (fun c => c = '\n') r
          rw [hr, List.append_nil] at hsplit
          rw [← hsplit] at hx
          simpa using List.mem_takeWhile_imp hx
        rw [sub6_nil, getLast_all_nl _ (by simp) hall]
        rfl
      · have hne : sub6 f (d :: r2) ≠ [] := sub6_ne_nil f _ (by simp)
        obtain ⟨y, ys, hys⟩ := List.exists_cons_of_ne_nil hne
        rw [hys, List.getLast?_cons_cons, List.getLast?_cons_cons, ← hys, ih]
        have hsplit := List.takeWhile_append_dropWhile (fun c => c = '\n') r
        rw [hr] at hsplit
        conv_rhs => rw [← hsplit]
        rw [show ('\n' :: '\n' :: '\n' ::
            (r.takeWhile (fun c => c = '\n') ++ d :: r2) : List Char)
          = ('\n' :: '\n' :: '\n' :: r.takeWhile (fun c => c = '\n')) ++ (d :: r2) from by
            simp]
        rw [List.getLast?_append]
        rw [List.getLast?_eq_getLast (d :: r2) (by simp)]
        rfl
    · rename_i c l2 hcomp
      show (c :: sub6 f l2).getLast? = (c :: l2).getLast?
      cases hl2 : l2 with
      | nil => rw [sub6_nil]
      | cons d l3 =>
        have hne : sub6 f (d :: l3) ≠ [] := sub6_ne_nil f _ (by simp)
        obtain ⟨y, ys, hys⟩ := List.exists_cons_of_ne_nil hne
        rw [hys, List.getLast?_cons_cons, ← hys, ih, List.getLast?_cons_cons]
    · rfl

theorem sub6_mem (f : Nat) : ∀ l c, c ∈ sub6 f l → c = '\n' ∨ c ∈ l := by
  induction f with
  | zero => intro l c h; exact Or.inr h
  | succ f ih =>
    intro l c h
    unfold sub6 at h
    split at h
    · rename_i r
      rcases List.mem_cons.mp h with rfl | h2
      · exact Or.inl rfl
      rcases List.mem_cons.mp h2 with rfl | h3
      · exact Or.inl rfl
      rcases ih _ c h3 with he | hm
      · exact Or.inl he
      · have hcr : c ∈ r := (List.dropWhile_sublist _).subset hm
        exact Or.inr (by simp [hcr])
    · rename_i a l2 hcomp
      rcases List.mem_cons.mp h with rfl | h2
      · exact Or.inr (by simp)
      rcases ih _ c h2 with he | hm
      · exact Or.inl he
      · exact Or.inr (by simp [hm])
    · simp at h

end Spec2Proof
namespace Spec2Proof

theorem hasTriple_cons_eq (a b c : Char) (r : List Char) :
    hasTriple (a :: b :: c :: r)
      = ((a = '\n' && b = '\n' && c = '\n') || hasTriple (b :: c :: r)) := rfl

theorem hasTriple_tail (a : Char) (l : List Char)
    (h : hasTriple (a :: l) = false) : hasTriple l = false := by
  match l with
  | [] => rfl
  | [b] => rfl
  | b :: c :: r =>
    have h2 := h
    rw [hasTriple_cons_eq] at h2
    simpa using (Bool.or_eq_false_iff.mp h2).2

theorem hasTriple_cons_first_ne (a : Char) (l : List Char) (ha : a ≠ '\n') :
    hasTriple (a :: l) = hasTriple l := by
  match l with
  | [] => rfl
  | [b] => rfl
  | b :: c :: r =>
    rw [hasTriple_cons_eq]
    simp [ha]

theorem hasTriple_cons2_ne (a b : Char) (l : List Char) (hb : b ≠ '\n') :
    hasTriple (a :: b :: l) = hasTriple (b :: l) := by
  match l with
  | [] => rfl
  | c :: r =>
    rw [hasTriple_cons_eq]
    simp [hb]

theorem hasTriple_cons3_ne (a b c : Char) (l : List Char) (hc : c ≠ '\n') :
    hasTriple (a :: b :: c :: l) = hasTriple (b :: c :: l) := by
  rw [hasTriple_cons_eq]
  simp [hc]

theorem sub6_noTriple : ∀ (f : Nat) (l : List Char), l.length ≤ f →
    hasTriple (sub6 f l) = false := by
  intro f
  induction f using Nat.strong_induction_on with
  | _ f ihs =>
    intro l hl
    match f with
    | 0 =>
      have : l = [] := List.eq_nil_of_length_eq_zero (Nat.le_zero.mp hl)
      subst this
      rfl
    | f + 1 =>
      unfold sub6
      split
      · rename_i r
        simp only [List.length_cons] at hl
        set r2 := r.dropWhile (fun c => c = '\n') with hr2
        have hlen : r2.length ≤ f := by
          have h1 : r2.length ≤ r.length := (List.dropWhile_sublist _).length_le
          omega
        have hz : hasTriple (sub6 f r2) = false := ihs f (by omega) r2 hlen
        cases hz0 : (sub6 f r2).head? with
        | none =>
          have hnil : sub6 f r2 = [] := List.head?_eq_none_iff.mp hz0
          rw [hnil]
          rfl
        | some z0 =>
          have hz0ne : z0 ≠ '\n' := by
            rw [sub6_head] at hz0
            have := dropWhile_head_ne (fun c => c = '\n') r z0 (by rw [← hr2]; exact hz0)
            simpa using this
          obtain ⟨zt, hzt⟩ : ∃ zt, sub6 f r2 = z0 :: zt := by
            rcases hc : sub6 f r2 with _ | ⟨y, ys⟩
            · rw [hc] at hz0; simp at hz0
            · rw [hc] at hz0
              simp at hz0
              exact ⟨ys, by rw [hz0]⟩
          rw [hzt]
          rw [hasTriple_cons3_ne _ _ _ _ hz0ne, hasTriple_cons2_ne _ _ _ hz0ne]
          rw [← hzt]
          exact hz
      · rename_i c l2 hcomp
        simp only [List.length_cons] at hl
        have hz : hasTriple (sub6 f l2) = false := ihs f (by omega) l2 (by omega)
        by_cases hc : c = '\n'
        · subst hc
          rcases l2 with _ | ⟨d, l3⟩
          · rw [sub6_nil]
            rfl
          · by_cases hd : d = '\n'
            · subst hd
              have hl3 : l3.head? ≠ some '\n' := by
                intro hh
                obtain ⟨l4, hl4⟩ : ∃ l4, l3 = '\n' :: l4 := by
                  rcases l3 with _ | ⟨y, ys⟩
                  · simp at hh
                  · simp at hh
                    exact ⟨ys, by rw [hh]⟩
                exact hcomp l4 rfl (by rw [hl4])
              rcases hzt : sub6 f ('\n' :: l3) with _ | ⟨z0, zt⟩
              · rfl
              · have hz0 : z0 = '\n' := by
                  have := sub6_head f ('\n' :: l3)
                  rw [hzt] at this
                  simpa using this
                subst hz0
                rcases zt with _ | ⟨z1, zt2⟩
                · rfl
                · have hz1 : z1 ≠ '\n' := by
                    have ht2 := sub6_take2 f ('\n' :: l3)
                    rw [hzt] at ht2
                    rcases l3 with _ | ⟨w, ws⟩
                    · simp at ht2
                    · simp [List.take_succ_cons, List.take_one] at ht2
                      intro he
                      exact hl3 (by simp [← ht2, he])
                  rw [hasTriple_cons3_ne _ _ _ _ hz1, hasTriple_cons2_ne _ _ _ hz1]
                  have := hz
                  rw [hzt] at this
                  exact hasTriple_tail _ _ this
            · rcases hzt : sub6 f (d :: l3) with _ | ⟨z0, zt⟩
              · rfl
              · have hz0 : z0 = d := by
                  have := sub6_head f (d :: l3)
                  rw [hzt] at this
                  simpa using this
                subst hz0
                rw [hasTriple_cons2_ne _ _ _ hd]
                have := hz
                rw [hzt] at this
                exact this
        · rw [hasTriple_cons_first_ne _ _ hc]
          exact hz
      · rfl

theorem sub6_id_of_noTriple : ∀ (f : Nat) (l : List Char),
    hasTriple l = false → sub6 f l = l := by
  intro f
  induction f with
  | zero => intro l _; rfl
  | succ f ih =>
    intro l h
    unfold sub6
    split
    · rename_i r
      rw [hasTriple_cons_eq] at h
      simp at h
    · rename_i c l2 hcomp
      rw [ih l2 (hasTriple_tail c l2 h)]
    · rfl

end Spec2Proof
namespace Spec2Proof

theorem pyStrip_head (l : List Char) (a : Char)
    (h : (pyStrip l).head? = some a) : pySpace a = false := by
  unfold pyStrip at h
  rw [List.head?_reverse] at h
  set x := (l.dropWhile pySpace).reverse with hx
  have hne : x.dropWhile pySpace ≠ [] := by
    intro he
    rw [he] at h
    simp at h
  have hsuffix : (x.dropWhile pySpace).getLast? = x.getLast? := by
    conv_rhs => rw [← List.takeWhile_append_dropWhile pySpace x]
    rw [List.getLast?_append]
    rw [List.getLast?_eq_getLast _ hne]
    rfl
  rw [hsuffix, hx, List.getLast?_reverse] at h
  exact dropWhile_head_ne pySpace l a h

theorem pyStrip_last (l : List Char) (a : Char)
    (h : (pyStrip l).getLast? = some a) : pySpace a = false := by
  unfold pyStrip at h
  rw [List.getLast?_reverse] at h
  exact dropWhile_head_ne pySpace _ a h

theorem dropWhile_eq_self_of_head (p : Char → Bool) (l : List Char)
    (h : ∀ a, l.head? = some a → p a = false) : l.dropWhile p = l := by
  cases l with
  | nil => rfl
  | cons c r => exact List.dropWhile_cons_of_neg (by simp [h c rfl])

theorem pyStrip_noop (l : List Char)
    (h1 : ∀ a, l.head? = some a → pySpace a = false)
    (h2 : ∀ a, l.getLast? = some a → pySpace a = false) : pyStrip l = l := by
  unfold pyStrip
  rw [dropWhile_eq_self_of_head pySpace l h1]
  rw [dropWhile_eq_self_of_head pySpace l.reverse
    (fun a ha => h2 a (by rwa [List.head?_reverse] at ha))]
  exact List.reverse_reverse l

theorem pyStrip_subset (l : List Char) (c : Char) (h : c ∈ pyStrip l) : c ∈ l := by
  unfold pyStrip at h
  rw [List.mem_reverse] at h
  have h2 := (List.dropWhile_sublist pySpace).subset h
  rw [List.mem_reverse] at h2
  exact (List.dropWhile_sublist pySpace).subset h2

theorem improveLB_clean (l : List Char) (h1 : '#' ∉ l) (h2 : '*' ∉ l) :
    improveLB l = sub6 (pyStrip l).length (pyStrip l) := by
  have hs1 : '#' ∉ pyStrip l := fun hm => h1 (pyStrip_subset _ _ hm)
  have hs2 : '*' ∉ pyStrip l := fun hm => h2 (pyStrip_subset _ _ hm)
  unfold improveLB runSub
  rw [sub1_nohash _ _ hs1, sub2_nohash _ _ hs1, sub3a_nostar _ _ hs2, sub3b_id,
    sub4a_nostar _ _ hs2, sub4b_nostar _ _ hs2, sub5_nostar _ _ hs2]

theorem improveLB_idem (l : List Char) (h1 : '#' ∉ l) (h2 : '*' ∉ l) :
    improveLB (improveLB l) = improveLB l := by
  rw [improveLB_clean l h1 h2]
  have hym : ∀ c, c ∈ sub6 (pyStrip l).length (pyStrip l) → c = '\n' ∨ c ∈ pyStrip l :=
    fun c hc => sub6_mem _ _ c hc
  have hy1 : '#' ∉ sub6 (pyStrip l).length (pyStrip l) := by
    intro hm
    rcases hym _ hm with he | hm2
    · exact absurd he (by decide)
    · exact h1 (pyStrip_subset _ _ hm2)
  have hy2 : '*' ∉ sub6 (pyStrip l).length (pyStrip l) := by
    intro hm
    rcases hym _ hm with he | hm2
    · exact absurd he (by decide)
    · exact h2 (pyStrip_subset _ _ hm2)
  rw [improveLB_clean _ hy1 hy2]
  have hstrip : pyStrip (sub6 (pyStrip l).length (pyStrip l))
      = sub6 (pyStrip l).length (pyStrip l) := by
    apply pyStrip_noop
    · intro a ha
      rw [sub6_head] at ha
      exact pyStrip_head l a ha
    · intro a ha
      rw [sub6_getLast] at ha
      exact pyStrip_last l a ha
  rw [hstrip]
  exact sub6_id_of_noTriple _ _ (sub6_noTriple (pyStrip l).length (pyStrip l) (le_refl _))

/-- C4 counterexample: the formatter is not idempotent — on `"a\n# \n# c"`
    the first pass consumes the whitespace of one header match inside
    another, so a second pass finds a new header match and inserts another
    blank line. -/
theorem format_not_idempotent_cex :
    improve_line_breaks (improve_line_breaks "a\n# \n# c")
      ≠ improve_line_breaks "a\n# \n# c" := by
  decide

theorem improve_line_breaks_mk (x : List Char) :
    improve_line_breaks (String.mk x)
      = if x.isEmpty then String.mk x else String.mk (improveLB x) := rfl

/-- C4 amended: the formatter is idempotent on text free of the Markdown
    trigger characters — for every string holding neither `#` nor `*`,
    a second application changes nothing (only the strip and
    newline-collapsing rules can fire, and both are idempotent).  On header
    or bold markup a second pass can still rewrite, as the counterexample
    shows. -/
theorem format_idempotent_on_plain_text (s : String)
    (h : s.data.all (fun c => !(c = '#') && !(c = '*')) = true) :
    improve_line_breaks (improve_line_breaks s) = improve_line_breaks s := by
  have h1 : '#' ∉ s.data := by
    intro hm
    have := List.all_eq_true.mp h _ hm
    simp at this
  have h2 : '*' ∉ s.data := by
    intro hm
    have := List.all_eq_true.mp h _ hm
    simp at this
  by_cases he : s.data.isEmpty
  · have hs0 : improve_line_breaks s = s := by
      unfold improve_line_breaks
      rw [if_pos he]
    rw [hs0, hs0]
  · have hs1 : improve_line_breaks s = String.mk (improveLB s.data) := by
      unfold improve_line_breaks
      rw [if_neg (by simpa using he)]
    rw [hs1, improve_line_breaks_mk]
    by_cases he2 : (improveLB s.data).isEmpty
    · rw [if_pos he2]
    · rw [if_neg he2]
      exact congrArg String.mk (improveLB_idem s.data h1 h2)

/-- C4 witness: a plain-text string with many blank lines formats to a fixed
    point. -/
theorem format_idempotent_on_plain_text_witness :
    improve_line_breaks (improve_line_breaks "x\n\n\n\ny z") =
      improve_line_breaks "x\n\n\n\ny z" :=
  format_idempotent_on_plain_text "x\n\n\n\ny z" (by decide)

end Spec2Proof
